import Mathlib

/-!
# Verification of the statistical / analysis routines of dataanalyzer-pro

This file gives a shallow embedding, in Lean 4, of the pure computational
routines of the repository (statistics helpers, the analysis engine's
descriptive statistics, Pearson correlation, field validation, number
formatting, the correlation-matrix construction, the text summarizer's
sentence selection, and the natural-language-query error handling), and
proves or refutes the documented properties of those routines.

Conventions of the embedding:
* JavaScript numbers are modelled as exact rationals (`ℚ`); `Math.sqrt`
  is modelled as `Real.sqrt`, so standard deviations live in `ℝ`.
* `array.sort((a, b) => a - b)` is modelled as an ascending stable sort.
* `array.reduce((s, v) => s + f(v), 0)` is modelled as a left fold.
* Fallible code (functions that `throw`) returns `Except String _`.
-/

namespace DataanalyzerPro

/-- Model of `[...values].sort((a, b) => a - b)`: JavaScript's sort is a
stable ascending sort, whose result is unique; we use insertion sort, which
computes by structural recursion. -/
def sortQ (values : List ℚ) : List ℚ :=
  values.insertionSort (· ≤ ·)

/-- A left fold adding `f` of each element equals the initial value plus the
sum of the mapped list (shape of `reduce((s, v) => s + f(v), c)`). -/
theorem foldl_add_map_sum {α : Type} (f : α → ℚ) :
    ∀ (l : List α) (c : ℚ), l.foldl (fun s v => s + f v) c = c + (l.map f).sum := by
  intro l
  induction l with
  | nil => intro c; simp
  | cons a l ih =>
    intro c
    simp only [List.foldl_cons, List.map_cons, List.sum_cons, ih]
    ring

/-- A plain additive left fold computes the list sum
(shape of `reduce((a, b) => a + b, c)`). -/
theorem foldl_add_sum (l : List ℚ) (c : ℚ) : l.foldl (· + ·) c = c + l.sum := by
  induction l generalizing c with
  | nil => simp
  | cons a l ih => simp only [List.foldl_cons, List.sum_cons, ih]; ring

/-- Sorting preserves length. -/
theorem length_sortQ (values : List ℚ) : (sortQ values).length = values.length :=
  (List.perm_insertionSort _ values).length_eq

namespace DataAnalyzer

/-- `calculateMean` from `DataAnalyzer.tsx`: `0` on the empty list, otherwise
`values.reduce((sum, val) => sum + val, 0) / values.length`. -/
def calculateMean (values : List ℚ) : ℚ :=
  if values.length = 0 then 0
  else values.foldl (· + ·) 0 / (values.length : ℚ)

/-- `calculateMedian` from `DataAnalyzer.tsx`: `0` on the empty list, otherwise
sort ascending, take `middle = ⌊n / 2⌋`; for even `n` average
`sorted[middle - 1]` and `sorted[middle]`, for odd `n` take `sorted[middle]`. -/
def calculateMedian (values : List ℚ) : ℚ :=
  if values.length = 0 then 0
  else
    let sorted := sortQ values
    let middle := values.length / 2
    if values.length % 2 = 0 then (sorted.getD (middle - 1) 0 + sorted.getD middle 0) / 2
    else sorted.getD middle 0

/-- `calculateStdDev` from `DataAnalyzer.tsx`: `0` on the empty list, otherwise
`Math.sqrt(calculateMean(values.map(v => (v - mean)^2)))`. -/
noncomputable def calculateStdDev (values : List ℚ) : ℝ :=
  if values.length = 0 then 0
  else Real.sqrt (calculateMean (values.map fun v => (v - calculateMean values) ^ 2))

end DataAnalyzer

/-- The reference median of the claim: the middle element of the sorted values
when the count is odd, the average of the two middle elements when even. -/
def medianRef (values : List ℚ) : ℚ :=
  let sorted := sortQ values
  if values.length % 2 = 1 then sorted.getD (values.length / 2) 0
  else (sorted.getD (values.length / 2 - 1) 0 + sorted.getD (values.length / 2) 0) / 2

namespace AnalysisEngine

/-- Per-field result record of `AnalysisEngine.calculateDescriptiveStats`. -/
structure DescriptiveStats where
  mean : ℚ
  median : ℚ
  standardDeviation : ℝ
  min : ℚ
  max : ℚ

/-- Model of `Math.min(...values)` on a nonempty list (`0` for the empty list,
which the engine never reaches because of its emptiness guard). -/
def listMin : List ℚ → ℚ
  | [] => 0
  | v :: vs => vs.foldl min v

/-- Model of `Math.max(...values)` on a nonempty list. -/
def listMax : List ℚ → ℚ
  | [] => 0
  | v :: vs => vs.foldl max v

/-- Per-field body of `AnalysisEngine.calculateDescriptiveStats`
(`AnalysisEngine.ts`): throws on an empty value list, otherwise computes
`mean = sum / n`, `median = sorted[⌊n / 2⌋]` (no averaging for even `n`),
population standard deviation, min and max.  The source's `isNaN` validation
is vacuous over exact rationals. -/
noncomputable def calculateDescriptiveStatsField (values : List ℚ) :
    Except String DescriptiveStats :=
  if values.length = 0 then Except.error "Field has no valid data"
  else
    let sum := values.foldl (· + ·) 0
    let mean := sum / (values.length : ℚ)
    let sorted := sortQ values
    let median := sorted.getD (values.length / 2) 0
    let squaredDiffs := values.map fun x => (x - mean) ^ 2
    let variance := squaredDiffs.foldl (· + ·) 0 / (values.length : ℚ)
    Except.ok
      { mean := mean
        median := median
        standardDeviation := Real.sqrt variance
        min := listMin values
        max := listMax values }

end AnalysisEngine

namespace StatsSummary

/-- JavaScript `isNaN` on a value already known to be a number: identically
false over exact rationals (`ℚ` has no NaN). -/
def jsIsNaN (_ : ℚ) : Bool := false

/-- Numeric part of the `FieldStats` record of `StatsSummary.tsx`. -/
structure NumericFieldStats where
  mean : ℚ
  median : ℚ
  min : ℚ
  max : ℚ
  stdDev : ℝ

/-- Numeric branch of `calculateFieldStats` (`StatsSummary.tsx`): filter out
NaN values, and when some remain compute `mean = sum / n`,
`median = sorted[⌊n / 2⌋]` (no averaging for even `n`), `min = sorted[0]`,
`max = sorted[n - 1]` and the population standard deviation; otherwise the
numeric stats stay undefined (`none`). -/
noncomputable def fieldNumericStats (values : List ℚ) : Option NumericFieldStats :=
  let numericValues := values.filter fun v => !jsIsNaN v
  if 0 < numericValues.length then
    let sorted := sortQ numericValues
    let mean := numericValues.foldl (· + ·) 0 / (numericValues.length : ℚ)
    some
      { mean := mean
        median := sorted.getD (numericValues.length / 2) 0
        min := sorted.getD 0 0
        max := sorted.getD (numericValues.length - 1) 0
        stdDev :=
          Real.sqrt
            ((numericValues.foldl (fun a b => a + (b - mean) ^ 2) 0 /
              (numericValues.length : ℚ) : ℚ)) }
  else none

/-- The NaN filter keeps every exact rational. -/
theorem numericValues_eq (values : List ℚ) :
    (values.filter fun v => !jsIsNaN v) = values := by
  simp [jsIsNaN]

end StatsSummary

/-- `calculateMean` on a nonempty list is the sum divided by the count. -/
theorem calculateMean_eq (values : List ℚ) (h : values.length ≠ 0) :
    DataAnalyzer.calculateMean values = values.sum / (values.length : ℚ) := by
  simp only [DataAnalyzer.calculateMean, if_neg h]
  rw [foldl_add_sum, zero_add]

/-- Closed form of the engine's per-field descriptive statistics on a
nonempty list. -/
theorem calculateDescriptiveStatsField_eq (values : List ℚ) (h : values.length ≠ 0) :
    AnalysisEngine.calculateDescriptiveStatsField values =
      Except.ok
        { mean := values.sum / (values.length : ℚ)
          median := (sortQ values).getD (values.length / 2) 0
          standardDeviation :=
            Real.sqrt
              (((values.map fun x => (x - values.sum / (values.length : ℚ)) ^ 2).sum /
                (values.length : ℚ) : ℚ))
          min := AnalysisEngine.listMin values
          max := AnalysisEngine.listMax values } := by
  simp only [AnalysisEngine.calculateDescriptiveStatsField, if_neg h]
  rw [foldl_add_sum, zero_add, foldl_add_sum, zero_add]

/-- Closed form of `calculateFieldStats`'s numeric statistics on a nonempty
list. -/
theorem fieldNumericStats_eq (values : List ℚ) (h : values.length ≠ 0) :
    StatsSummary.fieldNumericStats values =
      some
        { mean := values.sum / (values.length : ℚ)
          median := (sortQ values).getD (values.length / 2) 0
          min := (sortQ values).getD 0 0
          max := (sortQ values).getD (values.length - 1) 0
          stdDev :=
            Real.sqrt
              (((values.map fun b => (b - values.sum / (values.length : ℚ)) ^ 2).sum /
                (values.length : ℚ) : ℚ)) } := by
  simp only [StatsSummary.fieldNumericStats, StatsSummary.numericValues_eq,
    if_pos (Nat.pos_of_ne_zero h)]
  rw [foldl_add_sum, zero_add, foldl_add_map_sum]
  rw [zero_add]

/-- `calculateMedian` agrees with the reference median on every list. -/
theorem calculateMedian_eq_medianRef (values : List ℚ) :
    DataAnalyzer.calculateMedian values = medianRef values := by
  simp only [DataAnalyzer.calculateMedian, medianRef]
  rcases Nat.eq_zero_or_pos values.length with h0 | hpos
  · have hv : values = [] := List.length_eq_zero.mp h0
    subst hv
    simp [sortQ]
  · rw [if_neg (Nat.pos_iff_ne_zero.mp hpos)]
    rcases Nat.mod_two_eq_zero_or_one values.length with he | ho
    · rw [if_pos he, if_neg (by omega)]
    · rw [if_neg (by omega), if_pos ho]

/-- C1.  For every numeric field with at least one value: `DataAnalyzer`'s
`calculateMedian` equals the reference median (middle element for an odd
count, average of the two middle elements for an even count); the medians
displayed from `AnalysisEngine.calculateDescriptiveStats` and from
`StatsSummary`'s `calculateFieldStats` coincide with each other, equal the
reference median whenever the count is odd, but for an even count they are
the element at index `⌊n / 2⌋` of the sorted values rather than the average
of the two middle elements. -/
theorem c1_displayed_median_vs_reference (values : List ℚ) (h : values ≠ []) :
    ∃ stE stS,
      AnalysisEngine.calculateDescriptiveStatsField values = Except.ok stE ∧
      StatsSummary.fieldNumericStats values = some stS ∧
      DataAnalyzer.calculateMedian values = medianRef values ∧
      stE.median = stS.median ∧
      stE.median = (sortQ values).getD (values.length / 2) 0 ∧
      (values.length % 2 = 1 → stE.median = medianRef values) := by
  have hlen : values.length ≠ 0 := by simpa [List.length_eq_zero] using h
  refine ⟨_, _, calculateDescriptiveStatsField_eq values hlen,
    fieldNumericStats_eq values hlen, calculateMedian_eq_medianRef values, rfl, rfl, ?_⟩
  intro hodd
  simp [medianRef, hodd]

/-- C1, counterexample.  On the even-count field value list `[0, 2]`, both the
engine's and StatsSummary's displayed medians are `2`, while the reference
median (the average of the two middle elements) is `1`. -/
theorem c1_median_counterexample :
    ∃ stE stS,
      AnalysisEngine.calculateDescriptiveStatsField [0, 2] = Except.ok stE ∧
      StatsSummary.fieldNumericStats [0, 2] = some stS ∧
      stE.median ≠ medianRef [0, 2] ∧ stS.median ≠ medianRef [0, 2] := by
  refine ⟨_, _, calculateDescriptiveStatsField_eq [0, 2] (by decide),
    fieldNumericStats_eq [0, 2] (by decide), ?_, ?_⟩
  · norm_num [medianRef, sortQ, List.insertionSort, List.orderedInsert]
  · norm_num [medianRef, sortQ, List.insertionSort, List.orderedInsert]

/-- C1, witness at the concrete field value list `[1, 2, 3]`. -/
theorem c1_witness :
    ([1, 2, 3] : List ℚ) ≠ [] ∧
    ∃ stE stS,
      AnalysisEngine.calculateDescriptiveStatsField [1, 2, 3] = Except.ok stE ∧
      StatsSummary.fieldNumericStats [1, 2, 3] = some stS ∧
      DataAnalyzer.calculateMedian [1, 2, 3] = medianRef [1, 2, 3] ∧
      stE.median = stS.median ∧
      stE.median = (sortQ [1, 2, 3]).getD ([1, 2, 3].length / 2) 0 ∧
      (([1, 2, 3] : List ℚ).length % 2 = 1 → stE.median = medianRef [1, 2, 3]) :=
  ⟨by decide, c1_displayed_median_vs_reference [1, 2, 3] (by decide)⟩

/-- C2.  On every nonempty list of numbers the three reimplementations
(`DataAnalyzer`'s `calculateMean`/`calculateStdDev`,
`AnalysisEngine.calculateDescriptiveStats`, and `StatsSummary`'s
`calculateFieldStats`) return equal means and equal standard deviations;
the engine's and StatsSummary's medians always agree with each other, and
all three medians agree whenever the count is odd — but on an even count
`calculateMedian` averages the two middle elements while the other two
return the element at index `⌊n / 2⌋`. -/
theorem c2_reimplementations_agree (values : List ℚ) (h : values ≠ []) :
    ∃ stE stS,
      AnalysisEngine.calculateDescriptiveStatsField values = Except.ok stE ∧
      StatsSummary.fieldNumericStats values = some stS ∧
      DataAnalyzer.calculateMean values = stE.mean ∧
      stE.mean = stS.mean ∧
      DataAnalyzer.calculateStdDev values = stE.standardDeviation ∧
      stE.standardDeviation = stS.stdDev ∧
      stE.median = stS.median ∧
      (values.length % 2 = 1 → DataAnalyzer.calculateMedian values = stE.median) := by
  have hlen : values.length ≠ 0 := by simpa [List.length_eq_zero] using h
  refine ⟨_, _, calculateDescriptiveStatsField_eq values hlen,
    fieldNumericStats_eq values hlen, calculateMean_eq values hlen, rfl, ?_, rfl, rfl, ?_⟩
  · simp only [DataAnalyzer.calculateStdDev, if_neg hlen]
    rw [calculateMean_eq values hlen]
    rw [calculateMean_eq _ (by simpa using hlen)]
    rw [List.length_map]
  · intro hodd
    rw [calculateMedian_eq_medianRef values]
    simp [medianRef, hodd]

/-- C2, counterexample.  On the even-count list `[0, 2]`,
`DataAnalyzer.calculateMedian` returns `1` (the average of the middle pair)
while `AnalysisEngine.calculateDescriptiveStats` reports median `2`, so the
reimplementations do not compute the same median. -/
theorem c2_median_counterexample :
    ∃ stE,
      AnalysisEngine.calculateDescriptiveStatsField [0, 2] = Except.ok stE ∧
      DataAnalyzer.calculateMedian [0, 2] ≠ stE.median := by
  refine ⟨_, calculateDescriptiveStatsField_eq [0, 2] (by decide), ?_⟩
  norm_num [DataAnalyzer.calculateMedian, sortQ, List.insertionSort, List.orderedInsert]

/-- C2, witness at the concrete list `[3, 1, 2]`. -/
theorem c2_witness :
    ([3, 1, 2] : List ℚ) ≠ [] ∧
    ∃ stE stS,
      AnalysisEngine.calculateDescriptiveStatsField [3, 1, 2] = Except.ok stE ∧
      StatsSummary.fieldNumericStats [3, 1, 2] = some stS ∧
      DataAnalyzer.calculateMean [3, 1, 2] = stE.mean ∧
      stE.mean = stS.mean ∧
      DataAnalyzer.calculateStdDev [3, 1, 2] = stE.standardDeviation ∧
      stE.standardDeviation = stS.stdDev ∧
      stE.median = stS.median ∧
      (([3, 1, 2] : List ℚ).length % 2 = 1 →
        DataAnalyzer.calculateMedian [3, 1, 2] = stE.median) :=
  ⟨by decide, c2_reimplementations_agree [3, 1, 2] (by decide)⟩

/-- C3.  On every nonempty list the computed mean (both `calculateMean` and
the engine's descriptive mean) is the sum of the values divided by their
count, and `calculateMean` applied to the empty list returns `0`. -/
theorem c3_mean_formula :
    (∀ values : List ℚ, values ≠ [] →
      DataAnalyzer.calculateMean values = values.sum / (values.length : ℚ) ∧
      ∀ stE, AnalysisEngine.calculateDescriptiveStatsField values = Except.ok stE →
        stE.mean = values.sum / (values.length : ℚ)) ∧
    DataAnalyzer.calculateMean [] = 0 := by
  constructor
  · intro values h
    have hlen : values.length ≠ 0 := by simpa [List.length_eq_zero] using h
    refine ⟨calculateMean_eq values hlen, ?_⟩
    intro stE hE
    rw [calculateDescriptiveStatsField_eq values hlen] at hE
    cases hE
    rfl
  · rfl

/-- C3, witness at the concrete list `[2, 4]` (mean `3`). -/
theorem c3_witness :
    ([2, 4] : List ℚ) ≠ [] ∧
    DataAnalyzer.calculateMean [2, 4] = ([2, 4] : List ℚ).sum / (([2, 4] : List ℚ).length : ℚ) :=
  ⟨by decide, (c3_mean_formula.1 [2, 4] (by decide)).1⟩

namespace AnalysisEngine

/-- `AnalysisEngine.calculatePearsonCorrelation` (`AnalysisEngine.ts`):
running sums built by `reduce` (the cross term indexes `y[i]` from the fold
over `x`), numerator `n·ΣXY − ΣX·ΣY`, denominator
`√((n·ΣX² − (ΣX)²)·(n·ΣY² − (ΣY)²))`, returning `0` when the denominator
is `0`. -/
noncomputable def calculatePearsonCorrelation (x y : List ℚ) : ℝ :=
  let n : ℚ := x.length
  let sumX := x.foldl (· + ·) 0
  let sumY := y.foldl (· + ·) 0
  let sumXY := (List.range x.length).foldl (fun s i => s + x.getD i 0 * y.getD i 0) 0
  let sumX2 := x.foldl (fun s xi => s + xi * xi) 0
  let sumY2 := y.foldl (fun s yi => s + yi * yi) 0
  let numerator := n * sumXY - sumX * sumY
  let denominator :=
    Real.sqrt (((n * sumX2 - sumX * sumX) * (n * sumY2 - sumY * sumY) : ℚ))
  if denominator = 0 then 0 else (numerator : ℝ) / denominator

end AnalysisEngine

/-- The claim's reference Pearson correlation: the standard formula
`(n·Σxy − Σx·Σy) / √((n·Σx² − (Σx)²)·(n·Σy² − (Σy)²))`, with `0` when the
denominator is zero. -/
noncomputable def pearsonFormulaRef (x y : List ℚ) : ℝ :=
  let n : ℚ := x.length
  let sxy := (List.zipWith (· * ·) x y).sum
  let sx := x.sum
  let sy := y.sum
  let sx2 := (x.map fun v => v ^ 2).sum
  let sy2 := (y.map fun v => v ^ 2).sum
  let denominator := Real.sqrt (((n * sx2 - sx ^ 2) * (n * sy2 - sy ^ 2) : ℚ))
  if denominator = 0 then 0 else ((n * sxy - sx * sy : ℚ) : ℝ) / denominator

/-- Indexed access over a range of two equal-length lists is the elementwise
product list. -/
theorem range_map_getD_mul (x y : List ℚ) (h : x.length = y.length) :
    (List.range x.length).map (fun i => x.getD i 0 * y.getD i 0) =
      List.zipWith (· * ·) x y := by
  induction x generalizing y with
  | nil => simp
  | cons a x ih =>
    cases y with
    | nil => simp at h
    | cons b y =>
      have hxy : x.length = y.length := by simpa using h
      rw [List.length_cons, List.range_succ_eq_map, List.map_cons, List.map_map,
        List.zipWith_cons_cons]
      congr 1
      rw [← ih y hxy]
      exact List.map_congr_left fun i _ => by
        simp [Function.comp, List.getD_cons_succ]

/-- The indexed cross-term fold equals the sum of the elementwise products
when the two lists have equal length. -/
theorem range_foldl_mul (x y : List ℚ) (h : x.length = y.length) :
    (List.range x.length).foldl (fun s i => s + x.getD i 0 * y.getD i 0) 0 =
      (List.zipWith (· * ·) x y).sum := by
  rw [foldl_add_map_sum, zero_add, range_map_getD_mul x y h]

/-- C4.  For every pair of equal-length numeric lists,
`calculatePearsonCorrelation` computes the standard Pearson correlation
formula, returning `0` when the denominator is zero. -/
theorem c4_pearson_formula (x y : List ℚ) (h : x.length = y.length) :
    AnalysisEngine.calculatePearsonCorrelation x y = pearsonFormulaRef x y := by
  have hx : x.foldl (· + ·) 0 = x.sum := by simpa using foldl_add_sum x 0
  have hy : y.foldl (· + ·) 0 = y.sum := by simpa using foldl_add_sum y 0
  have hx2 : x.foldl (fun s xi => s + xi * xi) 0 = (x.map fun v => v ^ 2).sum := by
    rw [foldl_add_map_sum, zero_add]
    simp [pow_two]
  have hy2 : y.foldl (fun s yi => s + yi * yi) 0 = (y.map fun v => v ^ 2).sum := by
    rw [foldl_add_map_sum, zero_add]
    simp [pow_two]
  simp only [AnalysisEngine.calculatePearsonCorrelation, pearsonFormulaRef, hx, hy, hx2, hy2,
    range_foldl_mul x y h, pow_two]

/-- C4, witness at the equal-length lists `[1, 2, 3]` and `[2, 4, 5]`. -/
theorem c4_witness :
    ([1, 2, 3] : List ℚ).length = ([2, 4, 5] : List ℚ).length ∧
    AnalysisEngine.calculatePearsonCorrelation [1, 2, 3] [2, 4, 5] =
      pearsonFormulaRef [1, 2, 3] [2, 4, 5] :=
  ⟨by decide, c4_pearson_formula [1, 2, 3] [2, 4, 5] (by decide)⟩

namespace NLQuerySection

/-- A JavaScript value rejected by a promise: either an `Error` instance
carrying a message, or any non-`Error` value. -/
inductive ThrownValue where
  | errorObj (message : String)
  | nonErrorValue

/-- The response object stored by `NLQuerySection`: the query result on
success, or an object whose `error` field holds a message. -/
inductive QueryResponse (R : Type) where
  | result (r : R)
  | errorResponse (error : String)

/-- Component state of `NLQuerySection` after `handleQuery` completes. -/
structure QueryState (R : Type) where
  isLoading : Bool
  response : Option (QueryResponse R)

/-- The message the catch branch extracts:
`error instanceof Error ? error.message : 'Failed to process query'`. -/
def errorMessageOf : ThrownValue → String
  | .errorObj m => m
  | .nonErrorValue => "Failed to process query"

/-- `NLQuerySection.handleQuery` (`NLQuerySection.tsx`), as a function of the
settled outcome of `processNaturalLanguageQuery` (whose implementation is
outside the repository): the try branch stores the result, the catch branch
stores an error-response object, and the finally branch clears the loading
flag.  Totality of this function models that no exception escapes the
handler. -/
def handleQuery {R : Type} (outcome : Except ThrownValue R) : QueryState R :=
  match outcome with
  | .ok result => { isLoading := false, response := some (.result result) }
  | .error e =>
      { isLoading := false
        response :=
          some (.errorResponse (match e with
            | .errorObj m => m
            | .nonErrorValue => "Failed to process query")) }

end NLQuerySection

/-- C5.  Whenever `processNaturalLanguageQuery` rejects, `handleQuery` stores
a response whose `error` field is the rejected `Error`'s message, or
`"Failed to process query"` when the rejected value is not an `Error`; no
exception escapes (`handleQuery` is total), and the loading flag is `false`
after it completes. -/
theorem c5_handleQuery_errors {R : Type} (outcome : Except NLQuerySection.ThrownValue R) :
    (NLQuerySection.handleQuery outcome).isLoading = false ∧
    (∀ m, outcome = Except.error (.errorObj m) →
      (NLQuerySection.handleQuery outcome).response =
        some (.errorResponse m)) ∧
    (outcome = Except.error .nonErrorValue →
      (NLQuerySection.handleQuery outcome).response =
        some (.errorResponse "Failed to process query")) := by
  refine ⟨?_, ?_, ?_⟩
  · cases outcome <;> rfl
  · intro m hm
    subst hm
    rfl
  · intro hm
    subst hm
    rfl

/-- C5, witness: a rejection with an `Error` whose message is `"boom"`. -/
theorem c5_witness :
    (NLQuerySection.handleQuery
        (Except.error (NLQuerySection.ThrownValue.errorObj "boom") :
          Except NLQuerySection.ThrownValue Unit)).isLoading = false ∧
    (NLQuerySection.handleQuery
        (Except.error (NLQuerySection.ThrownValue.errorObj "boom") :
          Except NLQuerySection.ThrownValue Unit)).response =
      some (.errorResponse "boom") :=
  ⟨(c5_handleQuery_errors _).1, (c5_handleQuery_errors _).2.1 "boom" rfl⟩

namespace AnalysisEngine

/-- A JavaScript field value as seen by `validateFields`: an array of
numbers, an array of strings, or a non-array value. -/
inductive JsValue where
  | numberArray (values : List ℚ)
  | stringArray (values : List String)
  | nonArray

/-- `Array.isArray`. -/
def JsValue.isArray : JsValue → Bool
  | .numberArray _ => true
  | .stringArray _ => true
  | .nonArray => false

/-- A field record as validated by the engine; a missing or empty `name` or
`type` is modelled by the empty string (both are falsy in JavaScript). -/
structure DataFieldJS where
  name : String
  type : String
  value : JsValue

/-- `AnalysisEngine.validateFields` (`AnalysisEngine.ts`): throws when no
fields are provided, and when any field has a falsy `name`, a falsy `type`,
or a non-array `value`. -/
def validateFields (fields : List DataFieldJS) : Except String Unit :=
  if fields.length = 0 then Except.error "No fields provided for analysis"
  else
    let invalidFields :=
      fields.filter fun f => f.name == "" || f.type == "" || !f.value.isArray
    if invalidFields.length ≠ 0 then
      Except.error
        ("Invalid fields found: " ++ String.intercalate ", " (invalidFields.map (·.name)))
    else Except.ok ()

end AnalysisEngine

/-- C6 (amended).  `AnalysisEngine.validateFields` accepts a fields array
exactly when it is nonempty and every field has a truthy name, a truthy
type, and an array value — so the analysis layer does enforce these
structural invariants, contrary to the claim that any array of field
records is accepted. -/
theorem c6_validateFields_characterization (fields : List AnalysisEngine.DataFieldJS) :
    AnalysisEngine.validateFields fields = Except.ok () ↔
      fields ≠ [] ∧
        ∀ f ∈ fields, f.name ≠ "" ∧ f.type ≠ "" ∧ f.value.isArray = true := by
  simp only [AnalysisEngine.validateFields]
  rcases Nat.eq_zero_or_pos fields.length with h0 | hpos
  · rw [if_pos h0]
    have hv : fields = [] := List.length_eq_zero.mp h0
    subst hv
    simp
  · have hne : fields.length ≠ 0 := Nat.pos_iff_ne_zero.mp hpos
    rw [if_neg hne]
    have hfe : fields ≠ [] := by simpa [← List.length_eq_zero] using hne
    constructor
    · intro hok
      refine ⟨hfe, ?_⟩
      by_cases hlen :
          (fields.filter fun f => f.name == "" || f.type == "" || !f.value.isArray).length = 0
      · intro f hf
        have hnil := List.length_eq_zero.mp hlen
        have hmem := List.filter_eq_nil_iff.mp hnil f hf
        simp only [Bool.or_eq_true, beq_iff_eq, Bool.not_eq_true'] at hmem
        push_neg at hmem
        exact ⟨hmem.1.1, hmem.1.2, by simpa using hmem.2⟩
      · rw [if_pos hlen] at hok
        exact absurd hok (by simp)
    · rintro ⟨-, hall⟩
      have hnil : (fields.filter fun f => f.name == "" || f.type == "" || !f.value.isArray) = [] := by
        refine List.filter_eq_nil_iff.mpr fun f hf => ?_
        have hv := hall f hf
        simp only [Bool.or_eq_true, beq_iff_eq, Bool.not_eq_true']
        push_neg
        exact ⟨⟨hv.1, hv.2.1⟩, by simp [hv.2.2]⟩
      rw [if_neg (by simp [hnil])]

/-- C6, counterexample.  A field with a falsy name is rejected by the
analysis layer (as is the empty fields array), so it is not the case that
any array of field records is accepted for analysis without error. -/
theorem c6_counterexample :
    AnalysisEngine.validateFields
        [{ name := "", type := "number", value := .numberArray [1] }] =
      Except.error "Invalid fields found: " ∧
    AnalysisEngine.validateFields [] = Except.error "No fields provided for analysis" :=
  ⟨rfl, rfl⟩

/-- C6, witness: a well-formed singleton field array is accepted. -/
theorem c6_witness :
    AnalysisEngine.validateFields
        [{ name := "a", type := "number", value := .numberArray [1] }] = Except.ok () := by
  refine (c6_validateFields_characterization _).mpr ⟨by simp, ?_⟩
  intro f hf
  rw [List.mem_singleton.mp hf]
  refine ⟨by decide, by decide, rfl⟩

namespace Formatting

/-- The input of `formatNumber`: a finite number, or one of the non-finite
inputs the guard rejects (`NaN`, `±Infinity`, `null`, `undefined`). -/
inductive JsInput where
  | number (q : ℚ)
  | nan
  | posInfinity
  | negInfinity
  | nullValue
  | undefinedValue

/-- JavaScript's `Number.prototype.toFixed(2)` on an exact rational: round
to the nearest hundredth (half away from zero) and print with exactly two
decimals, with a leading minus sign for negative inputs. -/
def toFixed2 (q : ℚ) : String :=
  let cents : ℤ := if 0 ≤ q then ⌊q * 100 + 1 / 2⌋ else -⌊-q * 100 + 1 / 2⌋
  let a := cents.natAbs
  let whole := a / 100
  let frac := a % 100
  let fracStr := if frac < 10 then "0" ++ toString frac else toString frac
  (if q < 0 then "-" else "") ++ toString whole ++ "." ++ fracStr

/-- `formatNumber` (`utils/analysis/formatting.ts`): `'0.00'` for anything
that is not a finite number; otherwise scale by a million with an `'M'`
suffix for `|v| ≥ 1,000,000`, by a thousand with a `'K'` suffix for
`|v| ≥ 1,000`, and plain two-decimal rendering otherwise. -/
def formatNumber : JsInput → String
  | .number q =>
    if |q| ≥ 1000000 then toFixed2 (q / 1000000) ++ "M"
    else if |q| ≥ 1000 then toFixed2 (q / 1000) ++ "K"
    else toFixed2 q
  | _ => "0.00"

end Formatting

/-- C7.  `formatNumber` returns `"0.00"` for every non-finite input (`NaN`,
`±Infinity`, `null`, `undefined`); for a finite `v` with `|v| ≥ 1,000,000`
it renders `v / 1,000,000` to two decimals with an `"M"` suffix; for
`|v| ≥ 1,000` (and below a million) it renders `v / 1,000` to two decimals
with a `"K"` suffix; otherwise it renders `v` to two decimals. -/
theorem c7_formatNumber_spec :
    (Formatting.formatNumber .nan = "0.00" ∧
     Formatting.formatNumber .posInfinity = "0.00" ∧
     Formatting.formatNumber .negInfinity = "0.00" ∧
     Formatting.formatNumber .nullValue = "0.00" ∧
     Formatting.formatNumber .undefinedValue = "0.00") ∧
    (∀ q : ℚ, |q| ≥ 1000000 →
      Formatting.formatNumber (.number q) = Formatting.toFixed2 (q / 1000000) ++ "M") ∧
    (∀ q : ℚ, |q| < 1000000 → |q| ≥ 1000 →
      Formatting.formatNumber (.number q) = Formatting.toFixed2 (q / 1000) ++ "K") ∧
    (∀ q : ℚ, |q| < 1000 →
      Formatting.formatNumber (.number q) = Formatting.toFixed2 q) := by
  refine ⟨⟨rfl, rfl, rfl, rfl, rfl⟩, ?_, ?_, ?_⟩
  · intro q hq
    simp only [Formatting.formatNumber, if_pos hq]
  · intro q hlt hge
    simp only [Formatting.formatNumber, if_neg (not_le.mpr hlt), if_pos hge]
  · intro q hlt
    have hlt6 : ¬ |q| ≥ 1000000 := not_le.mpr (hlt.trans (by norm_num))
    simp only [Formatting.formatNumber, if_neg hlt6, if_neg (not_le.mpr hlt)]

/-- C7, witness at `2,500,000`, `2,500` and `25`. -/
theorem c7_witness :
    (|(2500000 : ℚ)| ≥ 1000000 ∧
      Formatting.formatNumber (.number 2500000) =
        Formatting.toFixed2 ((2500000 : ℚ) / 1000000) ++ "M") ∧
    (|(2500 : ℚ)| < 1000000 ∧ |(2500 : ℚ)| ≥ 1000 ∧
      Formatting.formatNumber (.number 2500) =
        Formatting.toFixed2 ((2500 : ℚ) / 1000) ++ "K") ∧
    (|(25 : ℚ)| < 1000 ∧
      Formatting.formatNumber (.number 25) = Formatting.toFixed2 25) :=
  ⟨⟨by norm_num, c7_formatNumber_spec.2.1 2500000 (by norm_num)⟩,
   ⟨by norm_num, by norm_num, c7_formatNumber_spec.2.2.1 2500 (by norm_num) (by norm_num)⟩,
   ⟨by norm_num, c7_formatNumber_spec.2.2.2 25 (by norm_num)⟩⟩

namespace CorrelationMatrix

/-- A numeric field as consumed by `CorrelationMatrix`: its name and its
numeric value array. -/
structure NumField where
  name : String
  value : List ℚ

/-- Modelled from the spec: the matrix component imports
`calculateCorrelation` from `utils/analysis/statistics/correlation`, whose
source is not in the repository snapshot; the spec describes the computation
as the Pearson correlation, so it is modelled by the engine's Pearson
formula. -/
noncomputable def calculateCorrelation (x y : List ℚ) : ℝ :=
  AnalysisEngine.calculatePearsonCorrelation x y

/-- The record key built from two field names by joining with an
underscore. -/
def matrixKey (a b : String) : String := a ++ "_" ++ b

/-- Default field used to express out-of-range indexed access. -/
def dfl : NumField := { name := "", value := [] }

/-- The field name at index `i`. -/
def fname (fields : List NumField) (i : ℕ) : String := (fields.getD i dfl).name

/-- The field values at index `i`. -/
def fval (fields : List NumField) (i : ℕ) : List ℚ := (fields.getD i dfl).value

/-- Body of the double loop of `correlations` in `CorrelationMatrix.tsx` at
indices `(i, j)`: skip when either value array is empty; write `1` under the
self key when `i = j`; when `i < j` write the correlation under the forward
key and mirror it under the reversed key; do nothing when `i > j`. -/
noncomputable def matrixEvent (fields : List NumField) (i j : ℕ) : List (String × ℝ) :=
  if (fval fields i).length = 0 ∨ (fval fields j).length = 0 then []
  else if i = j then [(matrixKey (fname fields i) (fname fields i), (1 : ℝ))]
  else if i < j then
    [(matrixKey (fname fields i) (fname fields j),
      calculateCorrelation (fval fields i) (fval fields j)),
     (matrixKey (fname fields j) (fname fields i),
      calculateCorrelation (fval fields i) (fval fields j))]
  else []

/-- All record writes performed by the double loop, in execution order. -/
noncomputable def matrixWrites (fields : List NumField) : List (String × ℝ) :=
  (List.range fields.length).flatMap fun i =>
    (List.range fields.length).flatMap fun j => matrixEvent fields i j

/-- The `correlations` record built by `CorrelationMatrix`: empty when fewer
than two numeric fields are present; otherwise a key holds the last value
written to it (later record writes overwrite earlier ones). -/
noncomputable def correlations (fields : List NumField) (k : String) : Option ℝ :=
  if fields.length < 2 then none
  else (((matrixWrites fields).filter fun w => w.1 == k).getLast?).map (·.2)

/-- Splitting at a separator character absent from both prefixes is
unambiguous. -/
theorem append_sep_inj {sep : Char} :
    ∀ {l1 l3 : List Char} {l2 l4 : List Char}, sep ∉ l1 → sep ∉ l3 →
      l1 ++ sep :: l2 = l3 ++ sep :: l4 → l1 = l3 ∧ l2 = l4 := by
  intro l1
  induction l1 with
  | nil =>
    intro l3 l2 l4 _ h3 h
    cases l3 with
    | nil => simpa using h
    | cons c l3 =>
      simp only [List.nil_append, List.cons_append, List.cons.injEq] at h
      exact absurd (h.1 ▸ List.mem_cons_self c l3) h3
  | cons c l1 ih =>
    intro l3 l2 l4 h1 h3 h
    cases l3 with
    | nil =>
      simp only [List.nil_append, List.cons_append, List.cons.injEq] at h
      exact absurd (h.1.symm ▸ List.mem_cons_self c l1) h1
    | cons d l3 =>
      simp only [List.cons_append, List.cons.injEq] at h
      obtain ⟨rfl, h⟩ := h
      obtain ⟨he, h2⟩ := ih (fun hm => h1 (List.mem_cons_of_mem _ hm))
        (fun hm => h3 (List.mem_cons_of_mem _ hm)) h
      exact ⟨by rw [he], h2⟩

/-- When both left parts are underscore-free, the underscore-joined key is
injective. -/
theorem matrixKey_inj {a b c d : String} (ha : '_' ∉ a.data) (hc : '_' ∉ c.data)
    (h : matrixKey a b = matrixKey c d) : a = c ∧ b = d := by
  have hd : a.data ++ '_' :: b.data = c.data ++ '_' :: d.data := by
    have hdata := congrArg String.data h
    simpa [matrixKey, String.data_append] using hdata
  obtain ⟨h1, h2⟩ := append_sep_inj ha hc hd
  exact ⟨String.ext h1, String.ext h2⟩

/-- A `flatMap` over a range whose function vanishes except at one index
reduces to that index. -/
theorem flatMap_single {α : Type} (g : ℕ → List α) (n a : ℕ) (ha : a < n)
    (hz : ∀ i < n, i ≠ a → g i = []) : (List.range n).flatMap g = g a := by
  induction n with
  | zero => omega
  | succ n ih =>
    rw [List.range_succ, List.flatMap_append]
    by_cases han : a = n
    · subst han
      have h0 : (List.range a).flatMap g = [] :=
        List.flatMap_eq_nil_iff.mpr fun i hi =>
          hz i (Nat.lt_succ_of_lt (List.mem_range.mp hi))
            (Nat.ne_of_lt (List.mem_range.mp hi))
      simp [h0]
    · have hlt : a < n := by omega
      rw [ih hlt fun i hi hne => hz i (Nat.lt_succ_of_lt hi) hne]
      have hgn : g n = [] := hz n (Nat.lt_succ_self n) (by omega)
      simp [hgn]

/-- The filter of the write list distributes over the two loops. -/
theorem filter_matrixWrites (fields : List NumField) (k : String) :
    (matrixWrites fields).filter (fun w => w.1 == k) =
      (List.range fields.length).flatMap fun i =>
        (List.range fields.length).flatMap fun j =>
          (matrixEvent fields i j).filter fun w => w.1 == k := by
  simp [matrixWrites, List.filter_flatMap]

/-- `flatMap` respects pointwise equality of its function on the list. -/
theorem flatMap_congr {α β : Type} {l : List α} {f g : α → List β}
    (h : ∀ a ∈ l, f a = g a) : l.flatMap f = l.flatMap g := by
  induction l with
  | nil => rfl
  | cons a l ih =>
    rw [List.flatMap_cons, List.flatMap_cons, h a (List.mem_cons_self a l),
      ih fun x hx => h x (List.mem_cons_of_mem a hx)]

/-- The field at an in-range index is a member of the list. -/
theorem getD_mem_of_lt (fields : List NumField) {i : ℕ} (hi : i < fields.length) :
    fields.getD i dfl ∈ fields := by
  rw [List.getD_eq_getElem fields dfl hi]
  exact List.getElem_mem hi

/-- At an in-range index of data whose fields all carry values, the value
array is nonempty. -/
theorem fval_length_ne_zero (fields : List NumField) (hvals : ∀ f ∈ fields, f.value ≠ [])
    {i : ℕ} (hi : i < fields.length) : (fval fields i).length ≠ 0 := by
  have hm := hvals _ (getD_mem_of_lt fields hi)
  simpa [fval, List.length_eq_zero] using hm

/-- The diagonal event of index `a` writes exactly `1` under the self key. -/
theorem event_filter_diag (fields : List NumField)
    (hvals : ∀ f ∈ fields, f.value ≠ []) {a : ℕ} (ha : a < fields.length) :
    (matrixEvent fields a a).filter
      (fun w => w.1 == matrixKey (fname fields a) (fname fields a)) =
      [(matrixKey (fname fields a) (fname fields a), (1 : ℝ))] := by
  have hGa : fval fields a ≠ [] := by
    simpa [List.length_eq_zero] using fval_length_ne_zero fields hvals ha
  simp [matrixEvent, hGa]

/-- All field names (and the out-of-range default) are underscore-free. -/
theorem fname_no_underscore (fields : List NumField)
    (hus0 : ∀ f ∈ fields, '_' ∉ f.name.data) :
    ∀ i, '_' ∉ (fname fields i).data := by
  intro i
  by_cases hi : i < fields.length
  · exact hus0 _ (getD_mem_of_lt fields hi)
  · rw [fname, List.getD_eq_default _ _ (le_of_not_lt hi)]
    simp [dfl]

/-- For two distinct underscore-free names `A ≠ B`, each loop event
contributes the same value sequence to the key of `(A, B)` as to the key of
`(B, A)`: diagonal and duplicate-name events touch neither key, and an
upper-triangle event writes both keys together with one common value (so
duplicate field names are harmless for symmetry). -/
theorem event_filter_map_symm (fields : List NumField)
    (husAll : ∀ i, '_' ∉ (fname fields i).data)
    {A B : String} (hA : '_' ∉ A.data) (hB : '_' ∉ B.data) (hAB : A ≠ B) (i j : ℕ) :
    ((matrixEvent fields i j).filter (fun w => w.1 == matrixKey A B)).map (·.2) =
      ((matrixEvent fields i j).filter (fun w => w.1 == matrixKey B A)).map (·.2) := by
  by_cases hG : (fval fields i).length = 0 ∨ (fval fields j).length = 0
  · rcases hG with h | h <;> simp [matrixEvent, List.length_eq_zero.mp h]
  · push_neg at hG
    have hGi : fval fields i ≠ [] := by simpa [List.length_eq_zero] using hG.1
    have hGj : fval fields j ≠ [] := by simpa [List.length_eq_zero] using hG.2
    have kAB : matrixKey A B ≠ matrixKey B A := by
      intro hk
      exact hAB (matrixKey_inj hA hB hk).1
    have kBA : matrixKey B A ≠ matrixKey A B := fun hk => kAB hk.symm
    by_cases hij : i = j
    · subst hij
      have h1 : matrixKey (fname fields i) (fname fields i) ≠ matrixKey A B := by
        intro hk
        obtain ⟨e1, e2⟩ := matrixKey_inj (husAll i) hA hk
        exact hAB (e1.symm.trans e2)
      have h2 : matrixKey (fname fields i) (fname fields i) ≠ matrixKey B A := by
        intro hk
        obtain ⟨e1, e2⟩ := matrixKey_inj (husAll i) hB hk
        exact hAB (e2.symm.trans e1)
      simp [matrixEvent, hGi, h1, h2]
    · by_cases hlt : i < j
      · by_cases hNA : fname fields i = A ∧ fname fields j = B
        · obtain ⟨hNa, hMb⟩ := hNA
          have k1 : matrixKey (fname fields i) (fname fields j) = matrixKey A B := by
            rw [hNa, hMb]
          have k4 : matrixKey (fname fields j) (fname fields i) = matrixKey B A := by
            rw [hNa, hMb]
          simp [matrixEvent, hGi, hGj, hij, hlt, k1, k4, kAB, kBA]
        · by_cases hNB : fname fields i = B ∧ fname fields j = A
          · obtain ⟨hNb, hMa⟩ := hNB
            have k2 : matrixKey (fname fields j) (fname fields i) = matrixKey A B := by
              rw [hNb, hMa]
            have k3 : matrixKey (fname fields i) (fname fields j) = matrixKey B A := by
              rw [hNb, hMa]
            simp [matrixEvent, hGi, hGj, hij, hlt, k2, k3, kAB, kBA]
          · have k1 : matrixKey (fname fields i) (fname fields j) ≠ matrixKey A B := by
              intro hk
              obtain ⟨e1, e2⟩ := matrixKey_inj (husAll i) hA hk
              exact hNA ⟨e1, e2⟩
            have k2 : matrixKey (fname fields j) (fname fields i) ≠ matrixKey A B := by
              intro hk
              obtain ⟨e1, e2⟩ := matrixKey_inj (husAll j) hA hk
              exact hNB ⟨e2, e1⟩
            have k3 : matrixKey (fname fields i) (fname fields j) ≠ matrixKey B A := by
              intro hk
              obtain ⟨e1, e2⟩ := matrixKey_inj (husAll i) hB hk
              exact hNB ⟨e1, e2⟩
            have k4 : matrixKey (fname fields j) (fname fields i) ≠ matrixKey B A := by
              intro hk
              obtain ⟨e1, e2⟩ := matrixKey_inj (husAll j) hB hk
              exact hNA ⟨e2, e1⟩
            simp [matrixEvent, hGi, hGj, hij, hlt, k1, k2, k3, k4]
      · simp [matrixEvent, hGi, hGj, hij, hlt]

/-- A loop event in a row whose field is not named `A` never writes the
self key of `A`. -/
theorem event_filter_diagKey_nil_left (fields : List NumField)
    (husAll : ∀ i, '_' ∉ (fname fields i).data)
    {A : String} (hA : '_' ∉ A.data) {i : ℕ} (hNi : fname fields i ≠ A) (j : ℕ) :
    (matrixEvent fields i j).filter (fun w => w.1 == matrixKey A A) = [] := by
  by_cases hG : (fval fields i).length = 0 ∨ (fval fields j).length = 0
  · rcases hG with h | h <;> simp [matrixEvent, List.length_eq_zero.mp h]
  · push_neg at hG
    have hGi : fval fields i ≠ [] := by simpa [List.length_eq_zero] using hG.1
    have hGj : fval fields j ≠ [] := by simpa [List.length_eq_zero] using hG.2
    by_cases hij : i = j
    · subst hij
      have h1 : matrixKey (fname fields i) (fname fields i) ≠ matrixKey A A := by
        intro hk
        exact hNi (matrixKey_inj (husAll i) hA hk).1
      simp [matrixEvent, hGi, h1]
    · by_cases hlt : i < j
      · have h1 : matrixKey (fname fields i) (fname fields j) ≠ matrixKey A A := by
          intro hk
          exact hNi (matrixKey_inj (husAll i) hA hk).1
        have h2 : matrixKey (fname fields j) (fname fields i) ≠ matrixKey A A := by
          intro hk
          exact hNi (matrixKey_inj (husAll j) hA hk).2
        simp [matrixEvent, hGi, hGj, hij, hlt, h1, h2]
      · simp [matrixEvent, hGi, hGj, hij, hlt]

/-- Within the row of an index `m`, no column other than `m` itself writes
the self key of `A` when every later column is not named `A` (earlier
columns fall in the lower triangle and write nothing). -/
theorem event_filter_diagKey_nil_inner (fields : List NumField)
    (husAll : ∀ i, '_' ∉ (fname fields i).data)
    {A : String} (hA : '_' ∉ A.data) {m j : ℕ} (hjm : j ≠ m)
    (hcase : j < m ∨ fname fields j ≠ A) :
    (matrixEvent fields m j).filter (fun w => w.1 == matrixKey A A) = [] := by
  by_cases hG : (fval fields m).length = 0 ∨ (fval fields j).length = 0
  · rcases hG with h | h <;> simp [matrixEvent, List.length_eq_zero.mp h]
  · push_neg at hG
    have hGm : fval fields m ≠ [] := by simpa [List.length_eq_zero] using hG.1
    have hGj : fval fields j ≠ [] := by simpa [List.length_eq_zero] using hG.2
    have hmj : m ≠ j := fun h => hjm h.symm
    by_cases hlt : m < j
    · have hNj : fname fields j ≠ A := by
        rcases hcase with h | h
        · omega
        · exact h
      have h1 : matrixKey (fname fields m) (fname fields j) ≠ matrixKey A A := by
        intro hk
        exact hNj (matrixKey_inj (husAll m) hA hk).2
      have h2 : matrixKey (fname fields j) (fname fields m) ≠ matrixKey A A := by
        intro hk
        exact hNj (matrixKey_inj (husAll j) hA hk).1
      simp [matrixEvent, hGm, hGj, hmj, hlt, h1, h2]
    · simp [matrixEvent, hGm, hGj, hmj, hlt]

/-- The last block of a `flatMap` over a range wins: when every index after
`m` contributes nothing and `m` contributes a singleton, the last element of
the whole `flatMap` is that singleton's element. -/
theorem getLast?_flatMap_of_last_single {α : Type} {g : ℕ → List α} {x : α} :
    ∀ {n m : ℕ}, m < n → (∀ i, m < i → i < n → g i = []) → g m = [x] →
      ((List.range n).flatMap g).getLast? = some x := by
  intro n
  induction n with
  | zero => intro m hm _ _; omega
  | succ n ih =>
    intro m hm hz hgm
    rw [List.range_succ, List.flatMap_append]
    by_cases hmn : m = n
    · subst hmn
      have hone : [m].flatMap g = [x] := by
        rw [List.flatMap_cons, List.flatMap_nil, List.append_nil, hgm]
      rw [hone]
      exact List.getLast?_concat _
    · have hlt : m < n := by omega
      have hgn : g n = [] := hz n hlt (Nat.lt_succ_self n)
      have hnil : [n].flatMap g = [] := by
        rw [List.flatMap_cons, List.flatMap_nil, List.append_nil, hgn]
      rw [hnil, List.append_nil]
      exact ih hlt (fun i hi hin => hz i hi (Nat.lt_succ_of_lt hin)) hgm

/-- For distinct underscore-free names, the value sequences written to the
two orientations of a key coincide over the whole double loop. -/
theorem writes_filter_map_symm (fields : List NumField)
    (husAll : ∀ i, '_' ∉ (fname fields i).data)
    {A B : String} (hA : '_' ∉ A.data) (hB : '_' ∉ B.data) (hAB : A ≠ B) :
    ((matrixWrites fields).filter (fun w => w.1 == matrixKey A B)).map (·.2) =
      ((matrixWrites fields).filter (fun w => w.1 == matrixKey B A)).map (·.2) := by
  rw [filter_matrixWrites, filter_matrixWrites, List.map_flatMap, List.map_flatMap]
  refine flatMap_congr fun i _ => ?_
  rw [List.map_flatMap, List.map_flatMap]
  exact flatMap_congr fun j _ => event_filter_map_symm fields husAll hA hB hAB i j

/-- When some field is named `A` (all value arrays nonempty, all names
underscore-free), the last write to the self key of `A` over the whole
loop is the diagonal write `1` of the greatest index named `A`: later rows
are not named `A` and write nothing under that key, and within row `m` the
diagonal event comes after every other writer of the key. -/
theorem getLast?_filter_writes_diagKey (fields : List NumField)
    (hvals : ∀ f ∈ fields, f.value ≠ [])
    (husAll : ∀ i, '_' ∉ (fname fields i).data)
    {A : String} (hA : '_' ∉ A.data)
    (hex : ∃ ia, ia < fields.length ∧ fname fields ia = A) :
    ((matrixWrites fields).filter (fun w => w.1 == matrixKey A A)).getLast? =
      some (matrixKey A A, (1 : ℝ)) := by
  obtain ⟨ia, hia, hPa⟩ := hex
  set m := Nat.findGreatest (fun i => fname fields i = A) (fields.length - 1) with hmdef
  have hm1 : fname fields m = A :=
    @Nat.findGreatest_spec ia (fun i => fname fields i = A) _ (fields.length - 1)
      (by omega) hPa
  have hm2 : m < fields.length :=
    lt_of_le_of_lt (Nat.findGreatest_le _) (by omega)
  have hm3 : ∀ k, m < k → k < fields.length → fname fields k ≠ A := fun k hk hkn =>
    @Nat.findGreatest_is_greatest k (fun i => fname fields i = A) _ (fields.length - 1)
      hk (by omega)
  rw [filter_matrixWrites]
  refine getLast?_flatMap_of_last_single hm2 ?_ ?_
  · intro i him hin
    exact List.flatMap_eq_nil_iff.mpr fun j _ =>
      event_filter_diagKey_nil_left fields husAll hA (hm3 i him hin) j
  · rw [flatMap_single _ _ m hm2 ?inner]
    case inner =>
      intro j hj hjm
      refine event_filter_diagKey_nil_inner fields husAll hA hjm ?_
      by_cases hjlt : j < m
      · exact Or.inl hjlt
      · exact Or.inr (hm3 j (by omega) hj)
    have hdiag := event_filter_diag fields hvals hm2
    rw [hm1] at hdiag
    exact hdiag

end CorrelationMatrix

/-- C8 (amended).  For every data input whose numeric fields all have
non-empty value arrays, provided the field names contain no underscore (so
the underscore-joined record keys parse unambiguously — the one condition
the key-collision counterexample forces): the correlations map built by
`CorrelationMatrix` is symmetric, and its diagonal entries all equal `1`
(they are present exactly when at least two numeric fields exist).  The
names need not be distinct: an upper-triangle event writes both key
orientations together with one common value, and the last write to a self
key is always a diagonal `1`. -/
theorem c8_correlations_symmetric (fields : List CorrelationMatrix.NumField)
    (hvals : ∀ f ∈ fields, f.value ≠ [])
    (hus0 : ∀ f ∈ fields, '_' ∉ f.name.data) :
    (∀ a ∈ fields, ∀ b ∈ fields,
      CorrelationMatrix.correlations fields (CorrelationMatrix.matrixKey a.name b.name) =
        CorrelationMatrix.correlations fields (CorrelationMatrix.matrixKey b.name a.name)) ∧
    (2 ≤ fields.length → ∀ a ∈ fields,
      CorrelationMatrix.correlations fields (CorrelationMatrix.matrixKey a.name a.name) =
        some 1) ∧
    (∀ a ∈ fields, ∀ v,
      CorrelationMatrix.correlations fields (CorrelationMatrix.matrixKey a.name a.name) =
        some v → v = 1) := by
  have husAll := CorrelationMatrix.fname_no_underscore fields hus0
  have hdiag : ∀ a ∈ fields, ¬fields.length < 2 →
      CorrelationMatrix.correlations fields (CorrelationMatrix.matrixKey a.name a.name) =
        some 1 := by
    intro a ha hn2
    obtain ⟨ia, hia, hEa⟩ := List.mem_iff_getElem.mp ha
    have hPa : CorrelationMatrix.fname fields ia = a.name := by
      rw [CorrelationMatrix.fname, List.getD_eq_getElem fields CorrelationMatrix.dfl hia, hEa]
    rw [CorrelationMatrix.correlations, if_neg hn2,
      CorrelationMatrix.getLast?_filter_writes_diagKey fields hvals husAll (hus0 a ha)
        ⟨ia, hia, hPa⟩]
    rfl
  refine ⟨?_, ?_, ?_⟩
  · intro a ha b hb
    by_cases hname : a.name = b.name
    · rw [hname]
    · by_cases hn2 : fields.length < 2
      · rw [CorrelationMatrix.correlations, if_pos hn2,
          CorrelationMatrix.correlations, if_pos hn2]
      · rw [CorrelationMatrix.correlations, if_neg hn2,
          CorrelationMatrix.correlations, if_neg hn2,
          ← List.getLast?_map, ← List.getLast?_map,
          CorrelationMatrix.writes_filter_map_symm fields husAll (hus0 a ha) (hus0 b hb)
            hname]
  · intro h2 a ha
    exact hdiag a ha (not_lt.mpr h2)
  · intro a ha v hv
    by_cases hn2 : fields.length < 2
    · rw [CorrelationMatrix.correlations, if_pos hn2] at hv
      cases hv
    · rw [hdiag a ha hn2] at hv
      exact (Option.some.inj hv).symm

/-- Four numeric fields whose underscore-joined keys collide: the pair
(`"a"`, `"b_c"`) and the pair (`"a_b"`, `"c"`) both write the key
`"a_b_c"`. -/
def collidingFields : List CorrelationMatrix.NumField :=
  [{ name := "a", value := [1, 2] }, { name := "b_c", value := [1, 2] },
   { name := "a_b", value := [1, 2] }, { name := "c", value := [2, 1] }]

/-- C8, counterexample.  With the four fields above (all with non-empty
value arrays), the later pair (`"a_b"`, `"c"`) overwrites the key
`"a_b_c"` with correlation `-1`, while the mirror key `"b_c_a"` keeps the
correlation `1` of the pair (`"a"`, `"b_c"`): the map is not symmetric. -/
theorem c8_counterexample :
    CorrelationMatrix.correlations collidingFields (CorrelationMatrix.matrixKey "a" "b_c") ≠
      CorrelationMatrix.correlations collidingFields
        (CorrelationMatrix.matrixKey "b_c" "a") := by
  have e1 : CorrelationMatrix.correlations collidingFields
      (CorrelationMatrix.matrixKey "a" "b_c") =
      some (CorrelationMatrix.calculateCorrelation [1, 2] [2, 1]) := rfl
  have e2 : CorrelationMatrix.correlations collidingFields
      (CorrelationMatrix.matrixKey "b_c" "a") =
      some (CorrelationMatrix.calculateCorrelation [1, 2] [1, 2]) := rfl
  have hc1 : CorrelationMatrix.calculateCorrelation [1, 2] [2, 1] = -1 := by
    simp only [CorrelationMatrix.calculateCorrelation,
      AnalysisEngine.calculatePearsonCorrelation]
    norm_num [List.foldl_cons, List.foldl_nil, List.range_succ, List.range_zero,
      List.getD_cons_zero, List.getD_cons_succ]
  have hc2 : CorrelationMatrix.calculateCorrelation [1, 2] [1, 2] = 1 := by
    simp only [CorrelationMatrix.calculateCorrelation,
      AnalysisEngine.calculatePearsonCorrelation]
    norm_num [List.foldl_cons, List.foldl_nil, List.range_succ, List.range_zero,
      List.getD_cons_zero, List.getD_cons_succ]
  rw [e1, e2, hc1, hc2]
  norm_num

/-- Two well-named sample fields for the C8 witness. -/
def sampleFields : List CorrelationMatrix.NumField :=
  [{ name := "x", value := [1, 2] }, { name := "y", value := [1, 3] }]

/-- C8, witness at two underscore-free field names. -/
theorem c8_witness :
    ((∀ f ∈ sampleFields, f.value ≠ []) ∧
      (∀ f ∈ sampleFields, '_' ∉ f.name.data)) ∧
    ((∀ a ∈ sampleFields, ∀ b ∈ sampleFields,
        CorrelationMatrix.correlations sampleFields
            (CorrelationMatrix.matrixKey a.name b.name) =
          CorrelationMatrix.correlations sampleFields
            (CorrelationMatrix.matrixKey b.name a.name)) ∧
      (2 ≤ sampleFields.length → ∀ a ∈ sampleFields,
        CorrelationMatrix.correlations sampleFields
            (CorrelationMatrix.matrixKey a.name a.name) = some 1) ∧
      (∀ a ∈ sampleFields, ∀ v,
        CorrelationMatrix.correlations sampleFields
            (CorrelationMatrix.matrixKey a.name a.name) = some v → v = 1)) :=
  ⟨⟨by decide, by decide⟩,
    c8_correlations_symmetric sampleFields (by decide) (by decide)⟩

namespace TextSummarization

/-- The first element of a `dropWhile` result fails the predicate. -/
theorem head?_dropWhile_not {α : Type} (p : α → Bool) (l : List α) :
    ∀ a, (l.dropWhile p).head? = some a → p a = false := by
  induction l with
  | nil => intro a h; simp at h
  | cons c cs ih =>
    intro a h
    by_cases hc : p c
    · rw [List.dropWhile_cons_of_pos hc] at h
      exact ih a h
    · rw [List.dropWhile_cons_of_neg hc] at h
      simp only [List.head?_cons, Option.some.injEq] at h
      subst h
      simpa using hc

/-- `dropWhile` is the identity on a list whose head fails the predicate. -/
theorem dropWhile_eq_self_of_head {α : Type} (p : α → Bool) (l : List α)
    (h : ∀ a, l.head? = some a → p a = false) : l.dropWhile p = l := by
  cases l with
  | nil => rfl
  | cons c cs =>
    have hc := h c rfl
    rw [List.dropWhile_cons_of_neg (by simp [hc])]

/-- `dropWhile` is idempotent. -/
theorem dropWhile_idem {α : Type} (p : α → Bool) (l : List α) :
    (l.dropWhile p).dropWhile p = l.dropWhile p :=
  dropWhile_eq_self_of_head p _ (head?_dropWhile_not p l)

/-- Dropping a suffix through `reverse` yields a prefix. -/
theorem dropWhile_reverse_prefix {α : Type} (p : α → Bool) (l : List α) :
    (l.reverse.dropWhile p).reverse <+: l := by
  obtain ⟨t, ht⟩ := List.dropWhile_suffix (l := l.reverse) (p := p)
  exact ⟨t.reverse, by rw [← List.reverse_append, ht, List.reverse_reverse]⟩

/-- The head of a nonempty prefix is the head of the list. -/
theorem head?_of_prefix {α : Type} {l₁ l₂ : List α} (h : l₁ <+: l₂) {a : α}
    (ha : l₁.head? = some a) : l₂.head? = some a := by
  obtain ⟨t, rfl⟩ := h
  cases l₁ with
  | nil => simp at ha
  | cons c cs => simpa using ha

/-- `String.prototype.trim()` on a character list: drop whitespace from both
ends. -/
def trimChars (l : List Char) : List Char :=
  ((l.dropWhile Char.isWhitespace).reverse.dropWhile Char.isWhitespace).reverse

/-- Trimming is idempotent. -/
theorem trimChars_idem (l : List Char) : trimChars (trimChars l) = trimChars l := by
  unfold trimChars
  set A := l.dropWhile Char.isWhitespace with hA
  set B := (A.reverse.dropWhile Char.isWhitespace).reverse with hB
  have hBA : B <+: A := dropWhile_reverse_prefix _ A
  have hBhead : ∀ a, B.head? = some a → Char.isWhitespace a = false := by
    intro a ha
    have h1 : A.head? = some a := head?_of_prefix hBA ha
    rw [hA] at h1
    exact head?_dropWhile_not _ l a h1
  have h2 : B.dropWhile Char.isWhitespace = B := dropWhile_eq_self_of_head _ _ hBhead
  rw [h2]
  have h3 : B.reverse = A.reverse.dropWhile Char.isWhitespace := by
    rw [hB, List.reverse_reverse]
  rw [h3, dropWhile_idem, ← h3, List.reverse_reverse]

/-- `trim` on strings. -/
def trimStr (s : String) : String := String.mk (trimChars s.data)

/-- `trim` on strings is idempotent. -/
theorem trimStr_idem (s : String) : trimStr (trimStr s) = trimStr s :=
  congrArg String.mk (trimChars_idem s.data)

/-- Does one pattern position accept a character?  `none` is the regex dot
(any character) — the abbreviation patterns like `Mr.` are compiled with
`new RegExp`, so their dot matches any character. -/
def patHit (p : Option Char) (c : Char) : Bool :=
  match p with
  | none => true
  | some pc => pc == c

/-- Try to match the pattern at the head of the list, returning the rest. -/
def matchPat : List (Option Char) → List Char → Option (List Char)
  | [], rest => some rest
  | _ :: _, [] => none
  | p :: ps, c :: cs => if patHit p c then matchPat ps cs else none

/-- `text.replace(new RegExp(pat, 'g'), repl)`: scan left to right,
replacing non-overlapping matches.  The fuel bounds the recursion;
`fuel = l.length` always suffices because every step consumes at least one
character (the patterns used are nonempty). -/
def replacePatAux (pat : List (Option Char)) (repl : List Char) : ℕ → List Char → List Char
  | _, [] => []
  | 0, l => l
  | fuel + 1, c :: cs =>
    match matchPat pat (c :: cs) with
    | some rest => repl ++ replacePatAux pat repl fuel rest
    | none => c :: replacePatAux pat repl fuel cs

/-- Compile an abbreviation (or placeholder) string to a pattern; the regex
dot becomes a wildcard. -/
def toPat (s : String) : List (Option Char) :=
  s.data.map fun c => if c = '.' then none else some c

/-- Global replacement of one pattern string. -/
def replaceAll (pat : String) (repl : String) (l : List Char) : List Char :=
  replacePatAux (toPat pat) repl.data l.length l

/-- The abbreviation list of `splitSentences` (`TextSummarization.tsx`). -/
def abbrevs : List String := ["Mr.", "Mrs.", "Dr.", "Prof.", "e.g.", "i.e.", "etc.", "vs."]

/-- The placeholders substituted for the abbreviations. -/
def placeholders : List String :=
  (List.range abbrevs.length).map fun i => "ABBREV" ++ toString i

/-- Is a character a sentence terminator (the class of the regex
`[^.!?]+[.!?]+`)? -/
def isTerm (c : Char) : Bool := c == '.' || c == '!' || c == '?'

/-- Global matching of `[^.!?]+[.!?]+`: skip terminators that cannot start a
match, take a nonempty run of non-terminators followed by a nonempty run of
terminators, and continue.  A trailing run with no terminator is dropped.
Each step consumes at least one character, so `fuel = l.length` suffices. -/
def matchSentencesAux : ℕ → List Char → List (List Char)
  | 0, _ => []
  | _, [] => []
  | fuel + 1, l =>
    let l1 := l.dropWhile isTerm
    let body := l1.takeWhile fun c => !isTerm c
    let rest1 := l1.dropWhile fun c => !isTerm c
    if rest1.isEmpty then []
    else
      let terms := rest1.takeWhile isTerm
      let rest2 := rest1.dropWhile isTerm
      (body ++ terms) :: matchSentencesAux fuel rest2

/-- `splitSentences` (`TextSummarization.tsx`): replace the abbreviations by
placeholders, match the sentence regex globally, then restore the
abbreviations and trim each sentence. -/
def splitSentences (text : String) : List String :=
  let processed := (abbrevs.zip placeholders).foldl
    (fun acc p => replaceAll p.1 p.2 acc) text.data
  let sentences := matchSentencesAux processed.length processed
  sentences.map fun s =>
    trimStr (String.mk ((abbrevs.zip placeholders).foldl
      (fun acc p => replaceAll p.2 p.1 acc) s))

/-- Every sentence produced by `splitSentences` is already trimmed. -/
theorem trim_of_mem_splitSentences (text : String) :
    ∀ x ∈ splitSentences text, trimStr x = x := by
  intro x hx
  simp only [splitSentences, List.mem_map] at hx
  obtain ⟨s, -, rfl⟩ := hx
  exact trimStr_idem _

/-- The stop-word set of `generateSummary`. -/
def stopWords : List String :=
  ["the", "and", "a", "an", "in", "on", "at", "to", "for", "of", "with", "is", "are",
   "was", "were"]

/-- The regex class `\w`. -/
def isWordChar (c : Char) : Bool := c.isAlphanum || c == '_'

/-- Split on whitespace runs (the observable behaviour of
`split(/\s+/)` once empty tokens are discarded by the length filter).
`fuel = l.length` suffices. -/
def splitWsAux : ℕ → List Char → List (List Char)
  | 0, _ => []
  | _, [] => []
  | fuel + 1, l =>
    let l1 := l.dropWhile Char.isWhitespace
    if l1.isEmpty then []
    else
      let w := l1.takeWhile fun c => !Char.isWhitespace c
      let rest := l1.dropWhile fun c => !Char.isWhitespace c
      w :: splitWsAux fuel rest

/-- The word list used for frequency scoring: lowercase, delete everything
outside `[\w\s']`, split on whitespace, keep words longer than two letters
that are not stop words. -/
def contentWords (text : List Char) : List String :=
  let cleaned := (text.map Char.toLower).filter fun c =>
    isWordChar c || c.isWhitespace || c == '\''
  ((splitWsAux cleaned.length cleaned).map String.mk).filter
    fun w => 2 < w.length && !stopWords.contains w

/-- The word-frequency map of `generateSummary`, as a counting function. -/
def wordFreq (text : List Char) (w : String) : ℕ := (contentWords text).count w

/-- A scored sentence of `generateSummary`. -/
structure ScoredSentence where
  text : String
  score : ℚ
  position : ℕ

/-- The sentence score: frequency, length and position components combined
with weights `0.6 / 0.2 / 0.2`. -/
def sentenceScore (fullText : List Char) (total idx : ℕ) (sentence : String) : ℚ :=
  let sentenceWords := contentWords sentence.data
  let frequencyScore : ℚ :=
    ((sentenceWords.map fun w => (wordFreq fullText w : ℚ)).sum) /
      ((max 1 sentenceWords.length : ℕ) : ℚ)
  let lengthScore : ℚ := 1 - |(sentenceWords.length : ℚ) - 15| / 15
  let positionScore : ℚ :=
    if idx = 0 ∨ idx = total - 1 then 5 / 4
    else 4 / 5 + 2 / 5 * ((idx : ℚ) / (total : ℚ))
  frequencyScore * (3 / 5) + lengthScore * (1 / 5) + positionScore * (1 / 5)

/-- Scoring of the split sentences, keeping each sentence's original
position. -/
def scoreSentences (fullText : List Char) (sentences : List String) : List ScoredSentence :=
  sentences.enum.map fun p =>
    { text := trimStr p.2
      score := sentenceScore fullText sentences.length p.1 p.2
      position := p.1 }

/-- Descending-score order (the comparator `(a, b) => b.score - a.score`). -/
def scoreGE (a b : ScoredSentence) : Prop := b.score ≤ a.score

instance : DecidableRel scoreGE := fun a b => inferInstanceAs (Decidable (b.score ≤ a.score))

/-- Ascending-position order (the comparator `(a, b) => a.position - b.position`). -/
def posLE (a b : ScoredSentence) : Prop := a.position ≤ b.position

instance : DecidableRel posLE := fun a b => inferInstanceAs (Decidable (a.position ≤ b.position))

instance : IsTotal ScoredSentence posLE := ⟨fun a b => Nat.le_total a.position b.position⟩

instance : IsTrans ScoredSentence posLE := ⟨fun _ _ _ hab hbc => Nat.le_trans hab hbc⟩

/-- The selection step of `generateSummary`: stable sort by descending
score, take the first `maxSentences`, and stable sort the selection by
ascending original position (JavaScript's sort is stable; insertion sort
realizes it). -/
def topSentences (scored : List ScoredSentence) (maxSentences : ℕ) : List ScoredSentence :=
  List.insertionSort posLE ((List.insertionSort scoreGE scored).take maxSentences)

/-- `generateSummary` (`TextSummarization.tsx`), from the joined field text:
fails on an effectively empty input or when no sentence is found, otherwise
returns the selected top sentences. -/
def generateSummary (fullText : String) (maxSentences : ℕ) :
    Except String (List ScoredSentence) :=
  if (trimStr fullText).length = 0 then Except.error "Input text is empty"
  else
    let sentences := splitSentences fullText
    if sentences.length = 0 then Except.error "No valid sentences found in text"
    else Except.ok (topSentences (scoreSentences fullText.data sentences) maxSentences)

end TextSummarization

/-- C9.  Whenever `generateSummary` succeeds (the input text contains at
least one sentence), it selects at most `maxSentences` sentences, each of
which is one of the sentences split from the input text, and outputs them
sorted in ascending order of their original position in the text. -/
theorem c9_summary_selection (fullText : String) (maxSentences : ℕ)
    (top : List TextSummarization.ScoredSentence)
    (h : TextSummarization.generateSummary fullText maxSentences = Except.ok top) :
    top.length ≤ maxSentences ∧
    (∀ s ∈ top, s.text ∈ TextSummarization.splitSentences fullText) ∧
    List.Sorted (· ≤ ·) (top.map (·.position)) := by
  simp only [TextSummarization.generateSummary] at h
  split_ifs at h
  rw [Except.ok.injEq] at h
  subst h
  refine ⟨?_, ?_, ?_⟩
  · calc (TextSummarization.topSentences _ maxSentences).length
        = ((List.insertionSort TextSummarization.scoreGE _).take maxSentences).length :=
          (List.perm_insertionSort _ _).length_eq
      _ ≤ maxSentences := by rw [List.length_take]; exact min_le_left _ _
  · intro s hs
    have hs1 : s ∈ (List.insertionSort TextSummarization.scoreGE
        (TextSummarization.scoreSentences fullText.data
          (TextSummarization.splitSentences fullText))).take maxSentences :=
      ((List.perm_insertionSort _ _).mem_iff).mp hs
    have hs2 := List.take_subset _ _ hs1
    have hs3 : s ∈ TextSummarization.scoreSentences fullText.data
        (TextSummarization.splitSentences fullText) :=
      ((List.perm_insertionSort _ _).mem_iff).mp hs2
    simp only [TextSummarization.scoreSentences, List.mem_map] at hs3
    obtain ⟨⟨i, snt⟩, hp, rfl⟩ := hs3
    obtain ⟨hi, hsnt⟩ := List.mem_enum hp
    have hmem : snt ∈ TextSummarization.splitSentences fullText :=
      hsnt ▸ List.getElem_mem hi
    have htr : TextSummarization.trimStr snt = snt :=
      TextSummarization.trim_of_mem_splitSentences _ _ hmem
    simpa [htr] using hmem
  · refine List.pairwise_map.mpr ?_
    exact List.sorted_insertionSort TextSummarization.posLE _

/-- C9, witness on a one-sentence text. -/
theorem c9_witness :
    ∃ top, TextSummarization.generateSummary "Hello there world. " 1 = Except.ok top ∧
      (top.length ≤ 1 ∧
        (∀ s ∈ top, s.text ∈ TextSummarization.splitSentences "Hello there world. ") ∧
        List.Sorted (· ≤ ·) (top.map (·.position))) :=
  ⟨_, rfl, c9_summary_selection "Hello there world. " 1 _ rfl⟩

end DataanalyzerPro
